import Mathlib

/-!
Verification development for the mms_msg meeting-mixture generator.

The file embeds, as executable Lean definitions, the two core components of
the repository:

* `mms_msg/sampling/pattern/meeting/overlap_sampler.py`
  (`get_allowed_max_overlap`, `UniformOverlapSampler.sample_offset` and the
  private sampling helpers), and
* `mms_msg/simulation/reverberant.py`
  (`get_rir_start_sample`, the early/tail RIR masking and convolution used by
  `reverberant_scenario_map_fn`, and `get_channel_slice`).

Machine integers are modelled as `Int`/`Nat`, floating point numbers as `ℚ`
(the properties checked here are exact threshold/ordering facts, not
rounding facts), NumPy arrays as lists, and `np.random.Generator` as an
abstract stream of draws.  Fallible code returns `Option`/`Except`.
-/

/-! ## Stable sort on (end time, speaker id) pairs

`get_allowed_max_overlap` calls `np.argsort(speaker_end)` and applies the
resulting permutation to both `speaker_end` and `speaker_ids`.  This is
modelled as a stable insertion sort of the zipped pairs, ascending by end
time.  (NumPy's default `kind='quicksort'` leaves the relative order of tied
keys implementation-defined; the stable model fixes one definite order and
coincides with NumPy on arrays without ties.) -/

/-- Insert `x` into `l` in front of the first element whose key (first
component) is `≥ x`'s key.  Used from the left, this yields a stable
ascending sort. -/
def insertPair (x : Int × Option String) :
    List (Int × Option String) → List (Int × Option String)
  | [] => [x]
  | y :: l => if x.1 ≤ y.1 then x :: y :: l else y :: insertPair x l

/-- Stable ascending sort of (end time, speaker id) pairs by end time;
models `np.argsort(speaker_end)` applied to both parallel arrays. -/
def sortPairs : List (Int × Option String) → List (Int × Option String)
  | [] => []
  | x :: l => insertPair x (sortPairs l)

/-- Insert `z` into `l` behind every element whose key is `≤ z`'s key.
Auxiliary notion used to describe how appending one element to the input of
`sortPairs` changes its output. -/
def insertRight (z : Int × Option String) :
    List (Int × Option String) → List (Int × Option String)
  | [] => [z]
  | y :: l => if y.1 ≤ z.1 then y :: insertRight z l else z :: y :: l

/-! ## get_allowed_max_overlap (overlap_sampler.py, lines 32-56) -/

/-- Active tail of `get_allowed_max_overlap`: pad `speaker_ids` with `None`
and `speaker_end` with zeros until length at least `max_concurrent_spk`
(lines 39-44), then keep the `max_concurrent_spk` entries with the largest
end times, ascending (`np.argsort(speaker_end)[-max_concurrent_spk:]`,
lines 46-49).  For `max_concurrent_spk ≥ 1` the Python slice `[-m:]` is
`drop (length - m)`. -/
def tail_pairs (speaker_end : List Int) (speaker_ids : List (Option String))
    (max_concurrent_spk : Nat) : List (Int × Option String) :=
  let ids1 := speaker_ids ++
    List.replicate (max_concurrent_spk - speaker_end.length) none
  let end1 := speaker_end ++
    List.replicate (max_concurrent_spk - speaker_end.length) (0 : Int)
  let sorted := sortPairs (end1.zip ids1)
  sorted.drop (sorted.length - max_concurrent_spk)

/-- Embedding of `get_allowed_max_overlap` (overlap_sampler.py lines 32-56).
After selecting the active tail, if `current_speaker_id` occurs among the
kept speaker ids, the effective concurrency count becomes the position from
the end of its last appearance plus one (lines 51-54:
`list(speaker_ids)[::-1].index(current_speaker_id)`); the result is
`speaker_end[-1] - speaker_end[-max_concurrent_spk]` with the updated count
(line 55).  Python's negative index `[-k]` on the length-`m` tail is
`getD (m - k)`. -/
def get_allowed_max_overlap (speaker_end : List Int)
    (speaker_ids : List (Option String)) (max_concurrent_spk : Nat)
    (current_speaker_id : String) : Int :=
  let tail := tail_pairs speaker_end speaker_ids max_concurrent_spk
  let tail_end := tail.map Prod.fst
  let tail_ids := tail.map Prod.snd
  let eff := if (some current_speaker_id) ∈ tail_ids then
      tail_ids.reverse.indexOf (some current_speaker_id) + 1
    else max_concurrent_spk
  tail_end.getD (tail_end.length - 1) 0 - tail_end.getD (tail_end.length - eff) 0

/-- Value of `get_allowed_max_overlap` as a function of the reversed
(descending) active tail: the minuend is the head (latest end time) and the
subtrahend sits at the index of the first occurrence of the current speaker
in the descending id list (or at the far end when the speaker is absent). -/
def revValue (rev : List (Int × Option String)) (cur : String) : Int :=
  let j := if (some cur) ∈ rev.map Prod.snd then
      (rev.map Prod.snd).indexOf (some cur)
    else rev.length - 1
  (rev.map Prod.fst).getD 0 0 - (rev.map Prod.fst).getD j 0

/-! ## Random generator model

`np.random.Generator` is modelled as an abstract stream: the value of the
`n`-th call to `uniform(0, 1)` resp. `integers(lo, hi)` is given by a pure
function of the call counter `n` (and the bounds).  Every sampling helper
consumes one draw and advances the counter, so "the same RNG stream" means
the same `Rng` and the same starting counter. -/

/-- Abstract stream of random draws, indexed by a call counter. -/
structure Rng where
  uniformVals : Nat → ℚ
  integerVals : Nat → Int → Int → Int

/-- A stream is valid when `uniform(0, 1)` draws lie in `[0, 1]` and
`integers(lo, hi)` draws lie in `[lo, hi)` whenever the range is nonempty. -/
def Rng.Valid (g : Rng) : Prop :=
  (∀ n, 0 ≤ g.uniformVals n ∧ g.uniformVals n ≤ 1) ∧
  (∀ n lo hi, lo < hi → lo ≤ g.integerVals n lo hi ∧ g.integerVals n lo hi < hi)

/-! ## UniformOverlapSampler (overlap_sampler.py, lines 75-156) -/

/-- Configuration fields of the `UniformOverlapSampler` dataclass
(overlap_sampler.py lines 59-101). -/
structure UniformOverlapSampler where
  max_concurrent_spk : Nat
  p_silence : ℚ
  maximum_silence : Int
  maximum_overlap : Int
  minimum_silence : Int
  soft_minimum_overlap : Int
  hard_minimum_overlap : Int
  margin : Int

/-- Construction invariants asserted by `__post_init__`
(overlap_sampler.py lines 103-107). -/
def post_init (c : UniformOverlapSampler) : Prop :=
  c.margin ≤ c.minimum_silence ∧
  c.minimum_silence < c.maximum_silence ∧
  c.soft_minimum_overlap ≤ c.maximum_overlap ∧
  c.hard_minimum_overlap ≤ c.maximum_overlap

instance (c : UniformOverlapSampler) : Decidable (post_init c) :=
  inferInstanceAs (Decidable (_ ∧ _ ∧ _ ∧ _))

/-- Embedding of `_sample_silence` (lines 150-152): one
`rng.integers(minimum_silence, maximum_silence)` draw; returns the value and
the advanced call counter. -/
def sample_silence (c : UniformOverlapSampler) (g : Rng) (n : Nat) : Int × Nat :=
  (g.integerVals n c.minimum_silence c.maximum_silence, n + 1)

/-- Embedding of `_sample_overlap` (lines 154-156): one
`rng.integers(hard_minimum_overlap, maximum_overlap)` draw. -/
def sample_overlap (c : UniformOverlapSampler) (g : Rng) (n : Nat) : Int × Nat :=
  (g.integerVals n c.hard_minimum_overlap c.maximum_overlap, n + 1)

/-- Embedding of `_sample_shift` (lines 143-148): draw `uniform(0, 1)`; with
probability `p_silence` draw silence, otherwise draw overlap and negate. -/
def sample_shift (c : UniformOverlapSampler) (g : Rng) (n : Nat) : Int × Nat :=
  if g.uniformVals n ≤ c.p_silence then sample_silence c g (n + 1)
  else
    let p := sample_overlap c g (n + 1)
    (-p.1, p.2)

/-- The `maximum_overlap <= hard_minimum_overlap` branch of `sample_offset`
(line 115): `max(self._sample_silence(rng), self.margin)`. -/
def silence_with_margin (c : UniformOverlapSampler) (g : Rng) (n : Nat) :
    Int × Nat :=
  let p := sample_silence c g n
  (max p.1 c.margin, p.2)

/-- The bounded rejection loop of `sample_offset` (lines 120-133): up to
`fuel` attempts draw a shift and accept the first one with
`shift > -maximum_overlap + margin`; when all attempts are rejected, fall
back to `_sample_silence` (line 133, after the warning). -/
def rejection_loop (c : UniformOverlapSampler) (maximum_overlap : Int)
    (g : Rng) : Nat → Nat → Int × Nat
  | 0, n => sample_silence c g n
  | fuel + 1, n =>
      let p := sample_shift c g n
      if -maximum_overlap + c.margin < p.1 then p
      else rejection_loop c maximum_overlap g fuel p.2

/-- The `shift` computed by `UniformOverlapSampler.sample_offset`
(overlap_sampler.py lines 113-133): silence clamped by `margin` when the
overlap window is below `hard_minimum_overlap`; the deterministic
`-maximum_overlap + margin` when it is below `soft_minimum_overlap`;
otherwise 100-attempt rejection sampling with silence fallback. -/
def sample_offset_shift (c : UniformOverlapSampler) (maximum_overlap : Int)
    (g : Rng) (n : Nat) : Int × Nat :=
  if maximum_overlap ≤ c.hard_minimum_overlap then silence_with_margin c g n
  else if maximum_overlap ≤ c.soft_minimum_overlap then
    (-maximum_overlap + c.margin, n)
  else rejection_loop c maximum_overlap g 100 n

/-- Maximum of a list of integers; models `np.max` on the nonempty array of
previous speaker end times (offset plus observation length). -/
def list_max : List Int → Int
  | [] => 0
  | x :: l => l.foldl max x

/-- Embedding of `UniformOverlapSampler.sample_offset` (lines 109-141):
the returned offset is the latest previous end time plus the sampled shift
(lines 137-140).  `speaker_ends` is the caller-collated list
`examples['offset']['original_source'] + examples['num_samples']['observation']`. -/
def sample_offset (c : UniformOverlapSampler) (speaker_ends : List Int)
    (maximum_overlap : Int) (g : Rng) (n : Nat) : Int × Nat :=
  let p := sample_offset_shift c maximum_overlap g n
  (list_max speaker_ends + p.1, p.2)

/-! ## get_rir_start_sample (reverberant.py, lines 216-253) -/

/-- Maximum of a list of rationals (`np.max` on a nonempty array; the `[]`
case is unreachable in the modelled call sites). -/
def maxQ : List ℚ → ℚ
  | [] => 0
  | [x] => x
  | x :: y :: l => max x (maxQ (y :: l))

/-- Index of the first occurrence of the maximum of a list of rationals;
models `np.argmax` (which returns the first maximal index). -/
def argmaxIdx : List ℚ → Nat
  | [] => 0
  | [_] => 0
  | x :: y :: l => if maxQ (y :: l) ≤ x then 0 else argmaxIdx (y :: l) + 1

/-- Index of the first `true` in a boolean list, and `0` when there is none;
models `np.argmax` on a boolean array (reverberant.py line 252). -/
def firstTrueIdx : List Bool → Nat
  | [] => 0
  | b :: l => if b then 0 else if true ∈ l then firstTrueIdx l + 1 else 0

/-- Embedding of `get_rir_start_sample` on a 1-D impulse response
(reverberant.py lines 245-253): take absolute values, find the first index
of the peak, mark the entries up to and including the peak that exceed
`level_ratio` times the peak, and return the first marked index. -/
def get_rir_start_sample (h : List ℚ) (level_ratio : ℚ) : Nat :=
  let abs_h := h.map (fun v => |v|)
  let max_index := argmaxIdx abs_h
  let max_abs_value := abs_h.getD max_index 0
  let larger_than_threshold :=
    (abs_h.take (max_index + 1)).map (fun v => decide (level_ratio * max_abs_value < v))
  firstTrueIdx larger_than_threshold

/-- Minimum of a list of naturals (`np.min` on a nonempty array). -/
def natListMin : List Nat → Nat
  | [] => 0
  | x :: l => l.foldl min x

/-- Embedding of `get_rir_start_sample` on a multichannel (2-D) impulse
response (reverberant.py lines 238-243): the leading dimension must satisfy
`h.shape[0] < 20` (`assert`, line 239; modelled by `none`); otherwise the
result is the minimum of the per-channel onsets. -/
def get_rir_start_sample_multi (h : List (List ℚ)) (level_ratio : ℚ) :
    Option Nat :=
  if h.length < 20 then
    some (natListMin (h.map (fun hrow => get_rir_start_sample hrow level_ratio)))
  else none

/-! ## Convolution, RIR masking and scaling (reverberant.py, lines 113-209)

Signals are 1-D rational lists (one speaker, one channel).
`scipy.signal.fftconvolve` computes a linear (non-circular) convolution; it
is embedded as the exact discrete convolution of length
`len(s) + len(h) - 1`. -/

/-- Exact linear convolution; embeds `fftconvolve(s, h, axes=-1)`
(reverberant.py lines 117-118) in exact arithmetic. -/
def fftconvolve (s h : List ℚ) : List ℚ :=
  (List.range (s.length + h.length - 1)).map
    (fun n => ∑ i ∈ Finset.range (n + 1), s.getD i 0 * h.getD (n - i) 0)

/-- Early-reverberation mask: zero every RIR sample at index
`rir_stop_sample` or later (`h_early[i, ..., rir_stop_sample[i]:] = 0`,
reverberant.py line 182). -/
def mask_early (rir_stop_sample : Nat) : List ℚ → List ℚ
  | [] => []
  | x :: l =>
    match rir_stop_sample with
    | 0 => 0 :: mask_early 0 l
    | s + 1 => x :: mask_early s l

/-- Tail-reverberation mask: zero every RIR sample before index
`rir_stop_sample` (`h_tail[i, ..., :rir_stop_sample[i]] = 0`,
reverberant.py line 199). -/
def mask_tail (rir_stop_sample : Nat) : List ℚ → List ℚ
  | [] => []
  | x :: l =>
    match rir_stop_sample with
    | 0 => x :: mask_tail 0 l
    | s + 1 => 0 :: mask_tail s l

/-- Per-speaker scaling `x_ * scale_` applied by `apply_scale`
(reverberant.py lines 163-164) to one speaker's signal. -/
def scale_signal (x : List ℚ) (scale : ℚ) : List ℚ :=
  x.map (fun v => v * scale)

/-! ## get_channel_slice (reverberant.py, lines 256-295) -/

/-- The possible `channel_slice` arguments of `get_channel_slice`: a Python
`slice(start, stop)`, an `int`, `None`, `'all'`, `'one_random'`, or any
other (unknown) string. -/
inductive ChannelSliceSpec where
  | pyslice (start stop : Int)
  | pyint (n : Int)
  | pynone
  | all
  | one_random
  | unknown (s : String)

/-- Results of `get_channel_slice`: a Python slice (with optional start and
stop, `slice(None)` selecting everything) or a bare integer index. -/
inductive ChannelSel where
  | sl (start stop : Option Int)
  | idx (i : Int)
deriving DecidableEq

/-- Embedding of `get_channel_slice` (reverberant.py lines 256-295).  The
`Bool` paired with the result records whether a process-default generator
was substituted for a missing `rng` argument
(`rng = np.random.default_rng()`, line 289); the channel such a substituted
generator draws is modelled as `0` (only the fact of the substitution
matters here).  `raise ValueError` is modelled as `Except.error` carrying
the message. -/
def get_channel_slice (channel_slice : ChannelSliceSpec)
    (total_num_channels : Option Int) (rng : Option (Rng × Nat))
    (squeeze : Bool) : Except String (ChannelSel × Bool) :=
  match channel_slice with
  | .pyslice start stop =>
      if squeeze ∧ stop - start = 1 then .ok (.idx start, false)
      else .ok (.sl (some start) (some stop), false)
  | .pyint n =>
      if squeeze ∧ n = 1 then .ok (.idx 0, false)
      else .ok (.sl none (some n), false)
  | .pynone => .ok (.sl none none, false)
  | .all => .ok (.sl none none, false)
  | .one_random =>
      match total_num_channels with
      | none => .error "total_num_channels must be given to select a random channel"
      | some tot =>
          let drawn : Int × Bool :=
            match rng with
            | none => (0, true)
            | some (g, n) => (g.integerVals n 0 tot, false)
          if squeeze then .ok (.idx drawn.1, drawn.2)
          else .ok (.sl (some drawn.1) (some (drawn.1 + 1)), drawn.2)
  | .unknown s => .error ("Unknown channel_slice=" ++ s)

/-! ## Concrete sampler configurations and streams used as witnesses -/

/-- Deterministic valid stream: every `uniform` draw is `0` and every
`integers(lo, hi)` draw is `lo`. -/
def gZero : Rng := ⟨fun _ => 0, fun _ lo _ => lo⟩

/-- Sampler configuration satisfying `__post_init__` with
`soft_minimum_overlap = 0`. -/
def cDemo : UniformOverlapSampler :=
  { max_concurrent_spk := 2, p_silence := 1/2, maximum_silence := 5,
    maximum_overlap := 3, minimum_silence := 1, soft_minimum_overlap := 0,
    hard_minimum_overlap := 0, margin := 1 }

/-- Sampler configuration satisfying `__post_init__` with a negative
`soft_minimum_overlap`. -/
def cBad : UniformOverlapSampler :=
  { max_concurrent_spk := 1, p_silence := 1, maximum_silence := 1,
    maximum_overlap := 0, minimum_silence := 0, soft_minimum_overlap := -1,
    hard_minimum_overlap := 0, margin := 0 }

/-! ## List helper lemmas -/

theorem getD_append_left {α : Type} (l1 l2 : List α) (i : Nat) (d : α)
    (h : i < l1.length) : (l1 ++ l2).getD i d = l1.getD i d := by
  rw [List.getD_eq_getElem _ _ (by simp; omega), List.getD_eq_getElem _ _ h,
    List.getElem_append_left h]

theorem getD_append_len {α : Type} (l1 l2 : List α) (i : Nat) (d : α) :
    (l1 ++ l2).getD (l1.length + i) d = l2.getD i d := by
  rcases Nat.lt_or_ge i l2.length with h | h
  · rw [List.getD_eq_getElem _ _ (by simp; omega), List.getD_eq_getElem _ _ h]
    rw [List.getElem_append_right (by omega)]
    congr 1
    omega
  · rw [List.getD_eq_default _ _ (by simp; omega), List.getD_eq_default _ _ h]

theorem getD_reverse {α : Type} (l : List α) (i : Nat) (d : α)
    (h : i < l.length) :
    l.reverse.getD i d = l.getD (l.length - 1 - i) d := by
  rw [List.getD_eq_getElem _ _ (by simpa using h),
    List.getD_eq_getElem _ _ (by omega)]
  exact List.getElem_reverse ..

theorem indexOf_append_mem {α : Type} [BEq α] [LawfulBEq α] (l1 l2 : List α)
    (a : α) (h : a ∈ l1) : (l1 ++ l2).indexOf a = l1.indexOf a := by
  induction l1 with
  | nil => cases h
  | cons b t ih =>
      rw [List.cons_append, List.indexOf_cons, List.indexOf_cons]
      cases hba : b == a with
      | true => simp
      | false =>
          have ht : a ∈ t := by
            rcases List.mem_cons.mp h with rfl | ht
            · simp at hba
            · exact ht
          simp [ih ht]

theorem indexOf_append_not_mem {α : Type} [BEq α] [LawfulBEq α]
    (l1 l2 : List α) (a : α) (h : a ∉ l1) :
    (l1 ++ l2).indexOf a = l1.length + l2.indexOf a := by
  induction l1 with
  | nil => simp
  | cons b t ih =>
      rw [List.cons_append, List.indexOf_cons]
      have hba : (b == a) = false := by
        have hne : b ≠ a := fun hc => h (hc ▸ List.mem_cons_self b t)
        simpa using hne
      have ht : a ∉ t := fun hc => h (List.mem_cons_of_mem b hc)
      simp only [hba, cond_false, ih ht, List.length_cons]
      omega

/-! ## Properties of the stable pair sort -/

theorem length_insertPair (x : Int × Option String)
    (l : List (Int × Option String)) :
    (insertPair x l).length = l.length + 1 := by
  induction l with
  | nil => rfl
  | cons y t ih =>
      rw [insertPair]
      split
      · simp
      · simp [ih]

theorem length_sortPairs (l : List (Int × Option String)) :
    (sortPairs l).length = l.length := by
  induction l with
  | nil => rfl
  | cons x t ih => rw [sortPairs, length_insertPair, ih, List.length_cons]

theorem mem_insertPair {a x : Int × Option String}
    {l : List (Int × Option String)} :
    a ∈ insertPair x l ↔ a = x ∨ a ∈ l := by
  induction l with
  | nil => simp [insertPair]
  | cons y t ih =>
      rw [insertPair]
      by_cases hxy : x.1 ≤ y.1
      · rw [if_pos hxy]
        simp
      · rw [if_neg hxy]
        simp only [List.mem_cons, ih]
        tauto

theorem pairwise_insertPair {x : Int × Option String}
    {l : List (Int × Option String)}
    (h : l.Pairwise (fun a b => a.1 ≤ b.1)) :
    (insertPair x l).Pairwise (fun a b => a.1 ≤ b.1) := by
  induction l with
  | nil => simp [insertPair]
  | cons y t ih =>
      rw [insertPair]
      rcases List.pairwise_cons.mp h with ⟨hy, ht⟩
      by_cases hxy : x.1 ≤ y.1
      · rw [if_pos hxy]
        refine List.pairwise_cons.mpr ⟨?_, h⟩
        intro b hb
        rcases List.mem_cons.mp hb with rfl | hbt
        · exact hxy
        · exact le_trans hxy (hy b hbt)
      · rw [if_neg hxy]
        refine List.pairwise_cons.mpr ⟨?_, ih ht⟩
        intro b hb
        rcases mem_insertPair.mp hb with rfl | hbt
        · exact le_of_not_le hxy
        · exact hy b hbt

theorem pairwise_sortPairs (l : List (Int × Option String)) :
    (sortPairs l).Pairwise (fun a b => a.1 ≤ b.1) := by
  induction l with
  | nil => exact List.Pairwise.nil
  | cons x t ih => exact pairwise_insertPair ih

theorem insertPair_insertRight_comm (x z : Int × Option String)
    (l : List (Int × Option String)) :
    insertPair x (insertRight z l) = insertRight z (insertPair x l) := by
  induction l with
  | nil =>
      simp only [insertRight, insertPair]
  | cons y t ih =>
      simp only [insertRight, insertPair]
      by_cases hyz : y.1 ≤ z.1 <;> by_cases hxy : x.1 ≤ y.1 <;>
        by_cases hxz : x.1 ≤ z.1 <;>
        simp only [hyz, hxy, hxz, if_true, if_false, insertPair, insertRight,
          ih, ite_true, ite_false] <;>
        first
        | rfl
        | omega

theorem sortPairs_append_single (l : List (Int × Option String))
    (z : Int × Option String) :
    sortPairs (l ++ [z]) = insertRight z (sortPairs l) := by
  induction l with
  | nil => simp [sortPairs, insertPair, insertRight]
  | cons x t ih =>
      rw [List.cons_append, sortPairs, ih, sortPairs, insertPair_insertRight_comm]

theorem insertRight_split (z : Int × Option String)
    (l : List (Int × Option String))
    (h : l.Pairwise (fun a b => a.1 ≤ b.1)) :
    ∃ A B, l = A ++ B ∧ insertRight z l = A ++ z :: B ∧
      (∀ a ∈ A, a.1 ≤ z.1) ∧ (∀ b ∈ B, z.1 ≤ b.1) := by
  induction l with
  | nil => exact ⟨[], [], rfl, rfl, by simp, by simp⟩
  | cons y t ih =>
      rcases List.pairwise_cons.mp h with ⟨hy, ht⟩
      by_cases hyz : y.1 ≤ z.1
      · rcases ih ht with ⟨A, B, hAB, hins, hA, hB⟩
        refine ⟨y :: A, B, by simp [hAB], ?_, ?_, hB⟩
        · rw [insertRight, if_pos hyz, hins, List.cons_append]
        · intro a ha
          rcases List.mem_cons.mp ha with rfl | haA
          · exact hyz
          · exact hA a haA
      · refine ⟨[], y :: t, rfl, ?_, by simp, ?_⟩
        · rw [insertRight, if_neg hyz, List.nil_append]
        · intro b hb
          rcases List.mem_cons.mp hb with rfl | hbt
          · exact le_of_not_le hyz
          · exact le_trans (le_of_not_le hyz) (hy b hbt)

theorem indexOf_lt_len {α : Type} [BEq α] [LawfulBEq α] {a : α} {l : List α}
    (h : a ∈ l) : l.indexOf a < l.length := by
  induction l with
  | nil => cases h
  | cons b t ih =>
      rw [List.indexOf_cons]
      cases hba : b == a with
      | true => simp
      | false =>
          have ht : a ∈ t := by
            rcases List.mem_cons.mp h with rfl | ht
            · simp at hba
            · exact ht
          simpa using Nat.succ_lt_succ (ih ht)

/-! ## Bridge from get_allowed_max_overlap to revValue -/

theorem length_tail_pairs (e : List Int) (ids : List (Option String)) (m : Nat)
    (hlen : e.length = ids.length) : (tail_pairs e ids m).length = m := by
  unfold tail_pairs
  simp only [List.length_drop, length_sortPairs, List.length_zip,
    List.length_append, List.length_replicate, hlen]
  omega

theorem pairwise_tail_pairs (e : List Int) (ids : List (Option String)) (m : Nat) :
    (tail_pairs e ids m).Pairwise (fun a b => a.1 ≤ b.1) := by
  unfold tail_pairs
  exact (pairwise_sortPairs _).sublist (List.drop_sublist _ _)

theorem value_eq_revValue (T : List (Int × Option String)) (cur : String)
    (m : Nat) (hT : T.length = m) (hm : 1 ≤ m) :
    (T.map Prod.fst).getD ((T.map Prod.fst).length - 1) 0 -
      (T.map Prod.fst).getD ((T.map Prod.fst).length -
        (if (some cur) ∈ T.map Prod.snd then
          (T.map Prod.snd).reverse.indexOf (some cur) + 1 else m)) 0 =
    revValue T.reverse cur := by
  have hlf : (T.map Prod.fst).length = m := by simp [hT]
  rw [revValue]
  simp only [List.map_reverse, List.length_reverse, List.mem_reverse, hT, hlf]
  by_cases hmem : (some cur) ∈ T.map Prod.snd
  · rw [if_pos hmem, if_pos hmem]
    have hi : (T.map Prod.snd).reverse.indexOf (some cur) < m := by
      have h1 := indexOf_lt_len (List.mem_reverse.mpr hmem)
      simpa [hT] using h1
    rw [getD_reverse _ _ _ (by omega), getD_reverse _ _ _ (by omega), hlf]
    have e1 : m - 1 - 0 = m - 1 := by omega
    have e2 : m - ((T.map Prod.snd).reverse.indexOf (some cur) + 1) =
        m - 1 - (T.map Prod.snd).reverse.indexOf (some cur) := by omega
    rw [e1, e2]
  · rw [if_neg hmem, if_neg hmem]
    rw [getD_reverse _ _ _ (by omega), getD_reverse _ _ _ (by omega), hlf]
    have e1 : m - 1 - 0 = m - 1 := by omega
    have e2 : m - m = 0 := by omega
    have e3 : m - 1 - (m - 1) = 0 := by omega
    rw [e1, e2, e3]

theorem get_allowed_eq_revValue (e : List Int) (ids : List (Option String))
    (m : Nat) (cur : String) (hlen : e.length = ids.length) (hm : 1 ≤ m) :
    get_allowed_max_overlap e ids m cur =
      revValue (tail_pairs e ids m).reverse cur :=
  value_eq_revValue (tail_pairs e ids m) cur m
    (length_tail_pairs e ids m hlen) hm

theorem getD_fst_le_head (R : List (Int × Option String))
    (hrs : R.Pairwise (fun a b => b.1 ≤ a.1)) (j : Nat) (hjlt : j < R.length) :
    (R.map Prod.fst).getD j 0 ≤ (R.map Prod.fst).getD 0 0 := by
  have h0 : 0 < R.length := by omega
  rw [List.getD_eq_getElem _ _ (by simpa using hjlt),
    List.getD_eq_getElem _ _ (by simpa using h0)]
  simp only [List.getElem_map]
  rcases Nat.eq_zero_or_pos j with hj0 | hj0
  · subst hj0
    exact le_refl _
  · exact List.pairwise_iff_getElem.mp hrs 0 j h0 hjlt hj0

theorem revValue_nonneg (T : List (Int × Option String)) (cur : String)
    (hs : T.Pairwise (fun a b => a.1 ≤ b.1)) (hne : T ≠ []) :
    0 ≤ revValue T.reverse cur := by
  have hrs : T.reverse.Pairwise (fun a b => b.1 ≤ a.1) := by
    rw [List.pairwise_reverse]
    exact hs
  have hRlen : 0 < T.reverse.length := by
    simpa using List.length_pos.mpr hne
  rw [revValue]
  by_cases hmem : (some cur) ∈ T.reverse.map Prod.snd
  · rw [if_pos hmem]
    have hjlt : (T.reverse.map Prod.snd).indexOf (some cur) < T.reverse.length := by
      have h1 := indexOf_lt_len hmem
      simpa using h1
    have := getD_fst_le_head T.reverse hrs _ hjlt
    omega
  · rw [if_neg hmem]
    have := getD_fst_le_head T.reverse hrs (T.reverse.length - 1) (by omega)
    omega

theorem getD_map_fst_ge (L : List (Int × Option String)) (i : Nat)
    (h : i < L.length) (z : Int × Option String)
    (hall : ∀ b ∈ L, z.1 ≤ b.1) : z.1 ≤ (L.map Prod.fst).getD i 0 := by
  rw [List.getD_eq_getElem _ _ (by simpa using h)]
  simp only [List.getElem_map]
  exact hall _ (List.getElem_mem h)

theorem getD_map_fst_le (L : List (Int × Option String)) (i : Nat)
    (h : i < L.length) (z : Int × Option String)
    (hall : ∀ a ∈ L, a.1 ≤ z.1) : (L.map Prod.fst).getD i 0 ≤ z.1 := by
  rw [List.getD_eq_getElem _ _ (by simpa using h)]
  simp only [List.getElem_map]
  exact hall _ (List.getElem_mem h)

theorem revValue_step (RB RA : List (Int × Option String))
    (z : Int × Option String) (cur : String)
    (hB : ∀ b ∈ RB, z.1 ≤ b.1) (hA : ∀ a ∈ RA, a.1 ≤ z.1)
    (hz : z.2 = some cur → RA = []) (hne : RB ++ RA ≠ []) :
    revValue (RB ++ RA) cur ≤ revValue (RB ++ z :: RA) cur := by
  simp only [revValue, List.map_append, List.map_cons, List.length_append,
    List.length_cons]
  by_cases hmB : (some cur) ∈ RB.map Prod.snd
  · -- the current speaker occurs in the upper (larger-keyed) part: nothing moves
    have hBne : RB ≠ [] := by
      intro hc
      rw [hc] at hmB
      cases hmB
    have hBpos : 0 < (RB.map Prod.fst).length := by
      simpa using List.length_pos.mpr hBne
    rw [if_pos (List.mem_append_left _ hmB), if_pos (List.mem_append_left _ hmB)]
    rw [indexOf_append_mem _ _ _ hmB, indexOf_append_mem _ _ _ hmB]
    have hj : (RB.map Prod.snd).indexOf (some cur) < (RB.map Prod.fst).length := by
      have h1 := indexOf_lt_len hmB
      simpa using h1
    rw [getD_append_left _ _ _ _ hBpos, getD_append_left _ _ _ _ hBpos,
      getD_append_left _ _ _ _ hj, getD_append_left _ _ _ _ hj]
  · by_cases hmz : z.2 = some cur
    · -- the new element itself carries the current speaker id; then RA = []
      have hRA : RA = [] := hz hmz
      subst hRA
      have hBne : RB ≠ [] := by
        simp only [List.append_nil, ne_eq] at hne
        exact hne
      have hBpos : 0 < (RB.map Prod.fst).length := by
        simpa using List.length_pos.mpr hBne
      have hmR : (some cur) ∉ RB.map Prod.snd ++ ([] : List (Int × Option String)).map Prod.snd := by
        simp only [List.map_nil, List.append_nil]
        exact hmB
      have hmR2 : (some cur) ∈ RB.map Prod.snd ++ (z.2 :: ([] : List (Int × Option String)).map Prod.snd) := by
        simp [hmz]
      rw [if_neg hmR, if_pos hmR2]
      have hidxz : (RB.map Prod.snd ++ [z.2]).indexOf (some cur) = RB.length := by
        rw [indexOf_append_not_mem _ _ _ hmB, hmz]
        simp [List.indexOf_cons]
      simp only [List.map_nil, List.append_nil, List.length_nil,
        Nat.add_zero] at hidxz ⊢
      rw [hidxz]
      have hsub : (RB.map Prod.fst ++ [z.1]).getD RB.length 0 = z.1 := by
        have h1 := getD_append_len (RB.map Prod.fst) [z.1] 0 0
        simpa using h1
      rw [hsub]
      rw [getD_append_left _ _ _ _ hBpos]
      have hlast : z.1 ≤ (RB.map Prod.fst).getD (RB.length - 1) 0 := by
        refine getD_map_fst_ge RB _ (by simpa using List.length_pos.mpr hBne) z hB
      omega
    · by_cases hmA : (some cur) ∈ RA.map Prod.snd
      · -- current speaker occurs only in the lower part: its position from the
        -- front shifts by exactly the one inserted element
        have hAne : RA ≠ [] := by
          intro hc
          rw [hc] at hmA
          cases hmA
        have hApos : 0 < (RA.map Prod.fst).length := by
          simpa using List.length_pos.mpr hAne
        have hmR : (some cur) ∈ RB.map Prod.snd ++ RA.map Prod.snd :=
          List.mem_append_right _ hmA
        have hmR2 : (some cur) ∈ RB.map Prod.snd ++ (z.2 :: RA.map Prod.snd) := by
          simp [hmA]
        rw [if_pos hmR, if_pos hmR2]
        rw [indexOf_append_not_mem _ _ _ hmB, indexOf_append_not_mem _ _ _ hmB]
        have hic : (z.2 :: RA.map Prod.snd).indexOf (some cur) =
            (RA.map Prod.snd).indexOf (some cur) + 1 := by
          rw [List.indexOf_cons]
          have : (z.2 == some cur) = false := by simpa using hmz
          simp [this]
        rw [hic]
        have hiA : (RA.map Prod.snd).indexOf (some cur) < (RA.map Prod.fst).length := by
          have h1 := indexOf_lt_len hmA
          simpa using h1
        have hsubL : (RB.map Prod.fst ++ RA.map Prod.fst).getD
            ((RB.map Prod.snd).length + (RA.map Prod.snd).indexOf (some cur)) 0 =
            (RA.map Prod.fst).getD ((RA.map Prod.snd).indexOf (some cur)) 0 := by
          have h1 := getD_append_len (RB.map Prod.fst) (RA.map Prod.fst)
            ((RA.map Prod.snd).indexOf (some cur)) 0
          have hll : (RB.map Prod.snd).length = (RB.map Prod.fst).length := by simp
          rw [hll]
          exact h1
        have hsubR : (RB.map Prod.fst ++ (z.1 :: RA.map Prod.fst)).getD
            ((RB.map Prod.snd).length + ((RA.map Prod.snd).indexOf (some cur) + 1)) 0 =
            (RA.map Prod.fst).getD ((RA.map Prod.snd).indexOf (some cur)) 0 := by
          have h1 := getD_append_len (RB.map Prod.fst) (z.1 :: RA.map Prod.fst)
            ((RA.map Prod.snd).indexOf (some cur) + 1) 0
          have hll : (RB.map Prod.snd).length = (RB.map Prod.fst).length := by simp
          rw [hll]
          rw [h1]
          simp [List.getD_cons_succ]
        rw [hsubL, hsubR]
        by_cases hBne : RB = []
        · subst hBne
          simp only [List.map_nil, List.nil_append]
          have hhead : (RA.map Prod.fst).getD 0 0 ≤ z.1 :=
            getD_map_fst_le RA 0 (by simpa using List.length_pos.mpr hAne) z hA
          have hz0 : (z.1 :: RA.map Prod.fst).getD 0 0 = z.1 := rfl
          rw [hz0]
          omega
        · have hBpos : 0 < (RB.map Prod.fst).length := by
            simpa using List.length_pos.mpr hBne
          rw [getD_append_left _ _ _ _ hBpos, getD_append_left _ _ _ _ hBpos]
      · -- current speaker nowhere: the far end moves by one slot
        have hmR : (some cur) ∉ RB.map Prod.snd ++ RA.map Prod.snd := by
          intro hc
          rcases List.mem_append.mp hc with h | h
          · exact hmB h
          · exact hmA h
        have hmR2 : (some cur) ∉ RB.map Prod.snd ++ (z.2 :: RA.map Prod.snd) := by
          intro hc
          rcases List.mem_append.mp hc with h | h
          · exact hmB h
          · rcases List.mem_cons.mp h with h2 | h2
            · exact hmz h2.symm
            · exact hmA h2
        rw [if_neg hmR, if_neg hmR2]
        by_cases hAne : RA = []
        · subst hAne
          have hBne : RB ≠ [] := by simpa using hne
          have hBpos : 0 < (RB.map Prod.fst).length := by
            simpa using List.length_pos.mpr hBne
          simp only [List.map_nil, List.append_nil, List.length_nil]
          have hsub : (RB.map Prod.fst ++ [z.1]).getD (RB.length + (0 + 1) - 1) 0 = z.1 := by
            have h1 := getD_append_len (RB.map Prod.fst) [z.1] 0 0
            have he : RB.length + (0 + 1) - 1 = (RB.map Prod.fst).length + 0 := by simp
            rw [he]
            simpa using h1
          rw [hsub]
          rw [getD_append_left _ _ _ _ hBpos]
          have hlast : z.1 ≤ (RB.map Prod.fst).getD (RB.length + 0 - 1) 0 := by
            refine getD_map_fst_ge RB _ (by simpa using List.length_pos.mpr hBne) z hB
          omega
        · have hApos : 0 < RA.length := List.length_pos.mpr hAne
          have hsubL : (RB.map Prod.fst ++ RA.map Prod.fst).getD
              (RB.length + RA.length - 1) 0 =
              (RA.map Prod.fst).getD (RA.length - 1) 0 := by
            have h1 := getD_append_len (RB.map Prod.fst) (RA.map Prod.fst)
              (RA.length - 1) 0
            have he : RB.length + RA.length - 1 =
                (RB.map Prod.fst).length + (RA.length - 1) := by
              simp
              omega
            rw [he, h1]
          have hsubR : (RB.map Prod.fst ++ (z.1 :: RA.map Prod.fst)).getD
              (RB.length + (RA.length + 1) - 1) 0 =
              (RA.map Prod.fst).getD (RA.length - 1) 0 := by
            have h1 := getD_append_len (RB.map Prod.fst) (z.1 :: RA.map Prod.fst)
              ((RA.length - 1) + 1) 0
            have he : RB.length + (RA.length + 1) - 1 =
                (RB.map Prod.fst).length + ((RA.length - 1) + 1) := by
              simp
              omega
            rw [he, h1]
            simp [List.getD_cons_succ]
          rw [hsubL, hsubR]
          by_cases hBne : RB = []
          · subst hBne
            simp only [List.map_nil, List.nil_append]
            have hhead : (RA.map Prod.fst).getD 0 0 ≤ z.1 :=
              getD_map_fst_le RA 0 hApos z hA
            have hz0 : (z.1 :: RA.map Prod.fst).getD 0 0 = z.1 := rfl
            rw [hz0]
            omega
          · have hBpos : 0 < (RB.map Prod.fst).length := by
              simpa using List.length_pos.mpr hBne
            rw [getD_append_left _ _ _ _ hBpos, getD_append_left _ _ _ _ hBpos]


theorem length_insertRight (z : Int × Option String)
    (l : List (Int × Option String)) :
    (insertRight z l).length = l.length + 1 := by
  induction l with
  | nil => rfl
  | cons y t ih =>
      rw [insertRight]
      split
      · simp [ih]
      · simp

theorem get_allowed_step (e : List Int) (ids : List (Option String)) (m : Nat)
    (cur : String) (hlen : e.length = ids.length) (hm : 1 ≤ m) :
    get_allowed_max_overlap e ids m cur ≤
      get_allowed_max_overlap e ids (m + 1) cur := by
  rw [get_allowed_eq_revValue e ids m cur hlen hm,
    get_allowed_eq_revValue e ids (m + 1) cur hlen (by omega)]
  rcases Nat.lt_or_ge m e.length with hcase | hcase
  · -- both tails come from the unpadded sorted list; the larger tail extends
    -- the smaller one by one element at its lower end
    have h0 : m - e.length = 0 := by omega
    have h1 : (m + 1) - e.length = 0 := by omega
    have hPm : tail_pairs e ids m = (sortPairs (e.zip ids)).drop
        ((sortPairs (e.zip ids)).length - m) := by
      unfold tail_pairs
      simp only [h0, List.replicate_zero, List.append_nil]
    have hPm1 : tail_pairs e ids (m + 1) = (sortPairs (e.zip ids)).drop
        ((sortPairs (e.zip ids)).length - (m + 1)) := by
      unfold tail_pairs
      simp only [h1, List.replicate_zero, List.append_nil]
    have hLlen : (sortPairs (e.zip ids)).length = e.length := by
      rw [length_sortPairs, List.length_zip, hlen, Nat.min_self]
    have hidx : e.length - (m + 1) < (sortPairs (e.zip ids)).length := by omega
    have hconsT : (sortPairs (e.zip ids)).drop
          ((sortPairs (e.zip ids)).length - (m + 1)) =
        (sortPairs (e.zip ids))[e.length - (m + 1)] ::
          (sortPairs (e.zip ids)).drop ((sortPairs (e.zip ids)).length - m) := by
      have he2 : e.length - (m + 1) + 1 = e.length - m := by omega
      rw [hLlen, List.drop_eq_getElem_cons hidx, he2]
    have hpw : ((sortPairs (e.zip ids)).drop
        ((sortPairs (e.zip ids)).length - (m + 1))).Pairwise
          (fun a b => a.1 ≤ b.1) :=
      (pairwise_sortPairs _).sublist (List.drop_sublist _ _)
    rw [hconsT] at hpw
    have hzT := (List.pairwise_cons.mp hpw).1
    have hTlen : ((sortPairs (e.zip ids)).drop
        ((sortPairs (e.zip ids)).length - m)).length = m := by
      rw [List.length_drop]
      omega
    rw [hPm, hPm1, hconsT, List.reverse_cons]
    have hstep := revValue_step
      ((sortPairs (e.zip ids)).drop
        ((sortPairs (e.zip ids)).length - m)).reverse []
      ((sortPairs (e.zip ids))[e.length - (m + 1)]) cur
      (fun b hb => hzT b (List.mem_reverse.mp hb))
      (by simp)
      (fun _ => rfl)
      (by
        simp only [List.append_nil, ne_eq, List.reverse_eq_nil_iff]
        intro hc
        rw [hc] at hTlen
        simp at hTlen
        omega)
    rw [List.append_nil] at hstep
    exact hstep
  · -- padding grows by one zero sentinel; the sorted list gains one element
    have hlen1 : (e ++ List.replicate (m - e.length) (0 : Int)).length = m := by
      simp only [List.length_append, List.length_replicate]
      omega
    have hlen2 : (ids ++ List.replicate (m - e.length)
        (none : Option String)).length = m := by
      simp only [List.length_append, List.length_replicate, ← hlen]
      omega
    have hsl : (sortPairs ((e ++ List.replicate (m - e.length) (0 : Int)).zip
        (ids ++ List.replicate (m - e.length) (none : Option String)))).length
          = m := by
      rw [length_sortPairs, List.length_zip, hlen1, hlen2, Nat.min_self]
    have hrep1 : List.replicate ((m + 1) - e.length) (0 : Int) =
        List.replicate (m - e.length) 0 ++ [0] := by
      have he : (m + 1) - e.length = (m - e.length) + 1 := by omega
      rw [he, List.replicate_succ']
    have hrep2 : List.replicate ((m + 1) - e.length) (none : Option String) =
        List.replicate (m - e.length) none ++ [none] := by
      have he : (m + 1) - e.length = (m - e.length) + 1 := by omega
      rw [he, List.replicate_succ']
    have hzip : (e ++ List.replicate ((m + 1) - e.length) (0 : Int)).zip
        (ids ++ List.replicate ((m + 1) - e.length) (none : Option String)) =
        ((e ++ List.replicate (m - e.length) (0 : Int)).zip
          (ids ++ List.replicate (m - e.length) (none : Option String))) ++
          [((0 : Int), (none : Option String))] := by
      rw [hrep1, hrep2, ← List.append_assoc, ← List.append_assoc,
        List.zip_append (by rw [hlen1, hlen2])]
      rfl
    have hsl1 : (insertRight ((0 : Int), (none : Option String))
        (sortPairs ((e ++ List.replicate (m - e.length) (0 : Int)).zip
          (ids ++ List.replicate (m - e.length)
            (none : Option String))))).length = m + 1 := by
      rw [length_insertRight, hsl]
    have hTm : tail_pairs e ids m =
        sortPairs ((e ++ List.replicate (m - e.length) (0 : Int)).zip
          (ids ++ List.replicate (m - e.length) (none : Option String))) := by
      unfold tail_pairs
      simp only [hsl, Nat.sub_self, List.drop_zero]
    have hTm1 : tail_pairs e ids (m + 1) =
        insertRight ((0 : Int), (none : Option String))
          (sortPairs ((e ++ List.replicate (m - e.length) (0 : Int)).zip
            (ids ++ List.replicate (m - e.length) (none : Option String)))) := by
      unfold tail_pairs
      simp only [hzip, sortPairs_append_single, hsl1, Nat.sub_self, List.drop_zero]
    rcases insertRight_split ((0 : Int), (none : Option String)) _
      (pairwise_sortPairs ((e ++ List.replicate (m - e.length) (0 : Int)).zip
        (ids ++ List.replicate (m - e.length) (none : Option String))))
      with ⟨A, B, hAB, hins, hA, hB⟩
    rw [hTm, hTm1, hins, hAB]
    rw [List.reverse_append, List.reverse_append, List.reverse_cons,
      List.append_assoc, List.singleton_append]
    refine revValue_step B.reverse A.reverse ((0 : Int), (none : Option String))
      cur ?_ ?_ ?_ ?_
    · intro b hb
      exact hB b (List.mem_reverse.mp hb)
    · intro a ha
      exact hA a (List.mem_reverse.mp ha)
    · intro hc
      simp at hc
    · have hlenAB : (A ++ B).length = m := by rw [← hAB, hsl]
      intro hc
      have hc2 := congrArg List.length hc
      simp only [List.length_append, List.length_reverse, List.length_nil] at hc2
      simp only [List.length_append] at hlenAB
      omega

/-- C4: for every well-formed input (equal-length end-time and speaker-id
sequences, positive `max_concurrent_spk`), `get_allowed_max_overlap` returns
a non-negative integer, whether or not the current speaker appears in the
active tail; in particular on `speaker_end_times=[1]`, `speaker_ids=['a']`,
`max_concurrent_spk=2`, `current_speaker_id='a'` it returns `0`. -/
theorem c4_allowed_overlap_nonneg :
    (∀ (speaker_end : List Int) (speaker_ids : List (Option String))
      (m : Nat) (cur : String), speaker_end.length = speaker_ids.length →
      1 ≤ m → 0 ≤ get_allowed_max_overlap speaker_end speaker_ids m cur) ∧
    get_allowed_max_overlap [1] [some "a"] 2 "a" = 0 := by
  constructor
  · intro e ids m cur hlen hm
    rw [get_allowed_eq_revValue e ids m cur hlen hm]
    refine revValue_nonneg _ cur (pairwise_tail_pairs e ids m) ?_
    refine List.length_pos.mp ?_
    rw [length_tail_pairs e ids m hlen]
    omega
  · decide

/-- Witness for C4 at concrete inputs: the universal part applied to
end times `[3, 7]`, ids `x, y`, bound `2`, current speaker `z`, together
with the concrete zero case from the claim. -/
theorem c4_allowed_overlap_nonneg_witness :
    0 ≤ get_allowed_max_overlap [3, 7] [some "x", some "y"] 2 "z" ∧
    get_allowed_max_overlap [1] [some "a"] 2 "a" = 0 :=
  ⟨c4_allowed_overlap_nonneg.1 [3, 7] [some "x", some "y"] 2 "z"
    (by decide) (by decide),
   c4_allowed_overlap_nonneg.2⟩

/-- C5: for every fixed end-time sequence, speaker-id sequence and current
speaker id (well-formed: parallel sequences of equal length), and all
positive bounds `m1 ≤ m2`, the value of `get_allowed_max_overlap` with
`max_concurrent_spk = m2` is at least its value with
`max_concurrent_spk = m1`. -/
theorem c5_allowed_overlap_monotone (speaker_end : List Int)
    (speaker_ids : List (Option String)) (cur : String) (m1 m2 : Nat)
    (hlen : speaker_end.length = speaker_ids.length)
    (h1 : 1 ≤ m1) (h12 : m1 ≤ m2) :
    get_allowed_max_overlap speaker_end speaker_ids m1 cur ≤
      get_allowed_max_overlap speaker_end speaker_ids m2 cur := by
  induction m2, h12 using Nat.le_induction with
  | base => exact le_refl _
  | succ k hk ih =>
      exact le_trans ih
        (get_allowed_step speaker_end speaker_ids k cur hlen (le_trans h1 hk))

/-- Witness for C5 at concrete inputs: monotonicity from bound 1 to bound 3
on end times `[3, 7]` with the current speaker equal to the latest-ending
one. -/
theorem c5_allowed_overlap_monotone_witness :
    get_allowed_max_overlap [3, 7] [some "x", some "y"] 1 "y" ≤
      get_allowed_max_overlap [3, 7] [some "x", some "y"] 3 "y" :=
  c5_allowed_overlap_monotone [3, 7] [some "x", some "y"] "y" 1 3
    (by decide) (by decide) (by decide)

/-- The deterministic stream `gZero` is a valid stream. -/
theorem gZero_valid : gZero.Valid :=
  ⟨fun _ => ⟨le_refl 0, by norm_num [gZero]⟩, fun _ lo hi h => ⟨le_refl lo, h⟩⟩

/-- C2 as stated is false: with `soft_minimum_overlap = -1` (allowed by
`__post_init__`, which never requires it to be non-negative) and
`maximum_overlap = 0 > soft_minimum_overlap`, the
`maximum_overlap <= hard_minimum_overlap` branch can return a shift equal to
`margin`, which does not exceed `-maximum_overlap + margin = margin`. -/
theorem c2_counterexample :
    post_init cBad ∧ Rng.Valid gZero ∧ cBad.soft_minimum_overlap < 0 ∧
    ¬ (-(0 : Int) + cBad.margin < (sample_offset_shift cBad 0 gZero 0).1) :=
  ⟨by decide, gZero_valid, by decide, by decide⟩

/-- C2 amended: additionally assuming `soft_minimum_overlap ≥ 0`, for every
configuration satisfying the construction invariants, every valid RNG
stream, and every `maximum_overlap` strictly greater than
`soft_minimum_overlap`, the shift computed by `sample_offset` satisfies
`shift > -maximum_overlap + margin` — including when all 100
rejection-sampling attempts fail and the silence fallback is taken. -/
theorem c2_shift_bound (c : UniformOverlapSampler) (mo : Int) (g : Rng)
    (n : Nat) (hpost : post_init c) (hg : g.Valid)
    (hsoft : 0 ≤ c.soft_minimum_overlap) (hmo : c.soft_minimum_overlap < mo) :
    -mo + c.margin < (sample_offset_shift c mo g n).1 := by
  rw [sample_offset_shift]
  by_cases hhard : mo ≤ c.hard_minimum_overlap
  · rw [if_pos hhard]
    have hmarg : c.margin ≤ (silence_with_margin c g n).1 := by
      simp only [silence_with_margin]
      exact le_max_right _ _
    omega
  · rw [if_neg hhard, if_neg (by omega)]
    have hloop : ∀ fuel n0, -mo + c.margin < (rejection_loop c mo g fuel n0).1 := by
      intro fuel
      induction fuel with
      | zero =>
          intro n0
          rcases hg.2 n0 c.minimum_silence c.maximum_silence hpost.2.1 with ⟨hlo, _⟩
          have hmarg : c.margin ≤ (rejection_loop c mo g 0 n0).1 := by
            simp only [rejection_loop, sample_silence]
            exact le_trans hpost.1 hlo
          omega
      | succ k ih =>
          intro n0
          simp only [rejection_loop]
          split
          · rename_i hacc
            exact hacc
          · exact ih _
    exact hloop 100 n

/-- Witness for C2 (amended) on a concrete configuration, stream and
overlap bound. -/
theorem c2_shift_bound_witness :
    post_init cDemo ∧ (0 : Int) ≤ cDemo.soft_minimum_overlap ∧
    cDemo.soft_minimum_overlap < 1 ∧
    -(1 : Int) + cDemo.margin < (sample_offset_shift cDemo 1 gZero 0).1 :=
  ⟨by decide, by decide, by decide,
   c2_shift_bound cDemo 1 gZero 0 (by decide) gZero_valid (by decide) (by decide)⟩

/-- C6: whenever `maximum_overlap <= hard_minimum_overlap`, the shift
computed by `sample_offset` under the construction invariants lies in
`[minimum_silence, maximum_silence)` and is at least `margin`. -/
theorem c6_degenerate_window (c : UniformOverlapSampler) (g : Rng) (mo : Int)
    (n : Nat) (hpost : post_init c) (hg : g.Valid)
    (hmo : mo ≤ c.hard_minimum_overlap) :
    c.minimum_silence ≤ (sample_offset_shift c mo g n).1 ∧
    (sample_offset_shift c mo g n).1 < c.maximum_silence ∧
    c.margin ≤ (sample_offset_shift c mo g n).1 := by
  rw [sample_offset_shift, if_pos hmo]
  rcases hg.2 n c.minimum_silence c.maximum_silence hpost.2.1 with ⟨hlo, hhi⟩
  have hms : max (g.integerVals n c.minimum_silence c.maximum_silence) c.margin
      = g.integerVals n c.minimum_silence c.maximum_silence :=
    max_eq_left (le_trans hpost.1 hlo)
  simp only [silence_with_margin, sample_silence, hms]
  exact ⟨hlo, hhi, le_trans hpost.1 hlo⟩

/-- Witness for C6 on a concrete configuration and stream. -/
theorem c6_degenerate_window_witness :
    post_init cDemo ∧ (0 : Int) ≤ cDemo.hard_minimum_overlap ∧
    (cDemo.minimum_silence ≤ (sample_offset_shift cDemo 0 gZero 0).1 ∧
      (sample_offset_shift cDemo 0 gZero 0).1 < cDemo.maximum_silence ∧
      cDemo.margin ≤ (sample_offset_shift cDemo 0 gZero 0).1) :=
  ⟨by decide, by decide,
   c6_degenerate_window cDemo gZero 0 0 (by decide) gZero_valid (by decide)⟩

/-- C7: under the construction invariant `minimum_silence >= margin`, the
silence fallback taken when the rejection budget is exhausted
(`rejection_loop` at fuel `0`) produces, at every RNG state, exactly the
value of the `maximum_overlap <= hard_minimum_overlap` branch
(`silence_with_margin`) at that state: the clamp `max(silence, margin)`
never changes the sampled silence value, so the two branches are equal as
functions of the RNG. -/
theorem c7_fallback_eq_hard_branch (c : UniformOverlapSampler) (g : Rng)
    (mo : Int) (n : Nat) (hpost : post_init c) (hg : g.Valid) :
    rejection_loop c mo g 0 n = silence_with_margin c g n := by
  rcases hg.2 n c.minimum_silence c.maximum_silence hpost.2.1 with ⟨hlo, _⟩
  simp only [rejection_loop, silence_with_margin, sample_silence]
  rw [max_eq_left (le_trans hpost.1 hlo)]

/-- Witness for C7 on a concrete configuration and stream. -/
theorem c7_fallback_eq_hard_branch_witness :
    post_init cDemo ∧
    rejection_loop cDemo 3 gZero 0 0 = silence_with_margin cDemo gZero 0 :=
  ⟨by decide, c7_fallback_eq_hard_branch cDemo gZero 3 0 (by decide) gZero_valid⟩

/-! ## Properties of argmax and first-true search -/

theorem argmaxIdx_lt_length : ∀ (l : List ℚ), l ≠ [] → argmaxIdx l < l.length
  | [], h => absurd rfl h
  | [_], _ => by simp [argmaxIdx]
  | x :: y :: l, _ => by
      rw [argmaxIdx]
      split
      · simp
      · have hrec := argmaxIdx_lt_length (y :: l) (by simp)
        simp only [List.length_cons] at hrec ⊢
        omega

theorem getD_argmaxIdx : ∀ (l : List ℚ), l ≠ [] →
    l.getD (argmaxIdx l) 0 = maxQ l
  | [], h => absurd rfl h
  | [x], _ => by simp [argmaxIdx, maxQ]
  | x :: y :: l, _ => by
      rw [argmaxIdx, maxQ]
      split
      · rename_i hle
        simp only [List.getD_cons_zero]
        exact (max_eq_left hle).symm
      · rename_i hlt
        rw [List.getD_cons_succ, getD_argmaxIdx (y :: l) (by simp)]
        exact (max_eq_right (le_of_not_le hlt)).symm

theorem firstTrueIdx_lt_length (l : List Bool) (h : true ∈ l) :
    firstTrueIdx l < l.length := by
  induction l with
  | nil => cases h
  | cons b t ih =>
      rw [firstTrueIdx]
      by_cases hb : b = true
      · simp [hb]
      · have hbf : b = false := by simpa using hb
        subst hbf
        have hmem : true ∈ t := by
          rcases List.mem_cons.mp h with hc | hc
          · cases hc
          · exact hc
        simp only [if_false, Bool.false_eq_true, if_pos hmem, List.length_cons]
        have := ih hmem
        omega

theorem getD_firstTrueIdx (l : List Bool) (h : true ∈ l) :
    l.getD (firstTrueIdx l) false = true := by
  induction l with
  | nil => cases h
  | cons b t ih =>
      rw [firstTrueIdx]
      by_cases hb : b = true
      · simp [hb]
      · have hbf : b = false := by simpa using hb
        subst hbf
        have hmem : true ∈ t := by
          rcases List.mem_cons.mp h with hc | hc
          · cases hc
          · exact hc
        simp only [if_false, Bool.false_eq_true, if_pos hmem, List.getD_cons_succ]
        exact ih hmem

theorem getD_before_firstTrueIdx (l : List Bool) (j : Nat)
    (hj : j < firstTrueIdx l) : l.getD j false = false := by
  induction l generalizing j with
  | nil =>
      rw [firstTrueIdx] at hj
      omega
  | cons b t ih =>
      rw [firstTrueIdx] at hj
      by_cases hb : b = true
      · simp [hb] at hj
      · have hbf : b = false := by simpa using hb
        subst hbf
        by_cases hmem : true ∈ t
        · simp only [if_false, Bool.false_eq_true, if_pos hmem] at hj
          cases j with
          | zero => simp
          | succ i =>
              rw [List.getD_cons_succ]
              exact ih i (by omega)
        · simp only [if_false, Bool.false_eq_true, if_neg hmem] at hj
          omega

/-- C8 (amended): for every 1-D impulse response `h` with a positive peak
absolute value and every `level_ratio < 1`, `get_rir_start_sample` returns
the smallest index `i`, with `i` no greater than the first index of the
peak absolute value, such that `|h[i]|` exceeds `level_ratio` times the
peak absolute value; in particular `get_rir_start_sample [0, 0, 1, 0.5,
0.1]` returns `2`.  (The positivity hypothesis is forced by the
counterexample `h = [0]`, where no index satisfies the threshold but the
code still returns `0`.) -/
theorem c8_onset_detection :
    (∀ (h : List ℚ) (r : ℚ), h ≠ [] → r < 1 →
      0 < maxQ (h.map (fun v => |v|)) →
      (get_rir_start_sample h r ≤ argmaxIdx (h.map (fun v => |v|)) ∧
       r * maxQ (h.map (fun v => |v|)) <
         |h.getD (get_rir_start_sample h r) 0| ∧
       ∀ j < get_rir_start_sample h r,
         ¬ (r * maxQ (h.map (fun v => |v|)) < |h.getD j 0|))) ∧
    get_rir_start_sample [0, 0, 1, (1 : ℚ)/2, 1/10] (1/10) = 2 := by
  constructor
  · intro h r hne hr hpos
    simp only [get_rir_start_sample]
    set A := h.map (fun v => |v|) with hA
    have hAne : A ≠ [] := by simp [hA, hne]
    have hmi : argmaxIdx A < A.length := argmaxIdx_lt_length A hAne
    have hAh : A.length = h.length := by simp [hA]
    have hmav : A.getD (argmaxIdx A) 0 = maxQ A := getD_argmaxIdx A hAne
    set L := (A.take (argmaxIdx A + 1)).map
      (fun v => decide (r * A.getD (argmaxIdx A) 0 < v)) with hL
    have hLlen : L.length = argmaxIdx A + 1 := by
      rw [hL]
      simp only [List.length_map, List.length_take]
      omega
    have hthr : r * A.getD (argmaxIdx A) 0 < A.getD (argmaxIdx A) 0 := by
      rw [hmav]
      calc r * maxQ A < 1 * maxQ A := by
            exact mul_lt_mul_of_pos_right hr hpos
        _ = maxQ A := one_mul _
    have hgetA : ∀ (j : Nat) (hjm : j < argmaxIdx A + 1),
        L.getD j false = decide (r * A.getD (argmaxIdx A) 0 < A.getD j 0) := by
      intro j hjm
      have hjA : j < A.length := by omega
      have hjL : j < L.length := by omega
      rw [List.getD_eq_getElem _ _ hjL, List.getD_eq_getElem _ _ hjA]
      simp only [hL, List.getElem_map, List.getElem_take]
    have hmemL : true ∈ L := by
      have hidx : argmaxIdx A < L.length := by omega
      have hval : L.getD (argmaxIdx A) false = true := by
        rw [hgetA (argmaxIdx A) (by omega)]
        exact decide_eq_true hthr
      rw [List.getD_eq_getElem _ _ hidx] at hval
      exact hval ▸ List.getElem_mem hidx
    have hfl : firstTrueIdx L < L.length := firstTrueIdx_lt_length L hmemL
    have habs : ∀ (j : Nat), j < A.length → A.getD j 0 = |h.getD j 0| := by
      intro j hjA
      have hjh : j < h.length := by omega
      rw [List.getD_eq_getElem _ _ hjA, List.getD_eq_getElem _ _ hjh]
      simp only [hA, List.getElem_map]
    refine ⟨by omega, ?_, ?_⟩
    · have hvt : L.getD (firstTrueIdx L) false = true := getD_firstTrueIdx L hmemL
      rw [hgetA (firstTrueIdx L) (by omega)] at hvt
      have hlt := of_decide_eq_true hvt
      rw [hmav, habs (firstTrueIdx L) (by omega)] at hlt
      exact hlt
    · intro j hj
      have hvf : L.getD j false = false := getD_before_firstTrueIdx L j hj
      rw [hgetA j (by omega)] at hvf
      have hnlt := of_decide_eq_false hvf
      rw [hmav, habs j (by omega)] at hnlt
      exact hnlt
  · norm_num [get_rir_start_sample, argmaxIdx, maxQ, firstTrueIdx,
      abs_of_nonneg, List.getD]

/-- C8 as stated is false on the all-zero impulse response: the function
returns index `0`, yet no index - in particular not the returned one -
has absolute value exceeding `level_ratio` times the (zero) peak, so there
is no "smallest index" with the claimed property to return. -/
theorem c8_counterexample :
    get_rir_start_sample [(0 : ℚ)] (1/10) = 0 ∧
    ¬ ((1 : ℚ)/10 * maxQ ([(0 : ℚ)].map (fun v => |v|)) <
      |([(0 : ℚ)].getD (get_rir_start_sample [(0 : ℚ)] (1/10)) 0)|) := by
  constructor
  · norm_num [get_rir_start_sample, argmaxIdx, maxQ, firstTrueIdx, List.getD]
  · norm_num [get_rir_start_sample, argmaxIdx, maxQ, firstTrueIdx, List.getD]

/-- Witness for C8 (amended) on the concrete impulse response from the
claim. -/
theorem c8_onset_detection_witness :
    (([0, 0, 1, (1 : ℚ)/2, 1/10] : List ℚ) ≠ []) ∧ ((1 : ℚ)/10 < 1) ∧
    (0 < maxQ (([0, 0, 1, (1 : ℚ)/2, 1/10] : List ℚ).map (fun v => |v|))) ∧
    get_rir_start_sample [0, 0, 1, (1 : ℚ)/2, 1/10] (1/10) ≤
      argmaxIdx (([0, 0, 1, (1 : ℚ)/2, 1/10] : List ℚ).map (fun v => |v|)) ∧
    (1 : ℚ)/10 * maxQ (([0, 0, 1, (1 : ℚ)/2, 1/10] : List ℚ).map (fun v => |v|)) <
      |([0, 0, 1, (1 : ℚ)/2, 1/10] : List ℚ).getD
        (get_rir_start_sample [0, 0, 1, (1 : ℚ)/2, 1/10] (1/10)) 0| := by
  refine ⟨by simp, by norm_num, by norm_num [maxQ, abs_of_nonneg], ?_, ?_⟩
  · exact (c8_onset_detection.1 [0, 0, 1, (1 : ℚ)/2, 1/10] (1/10) (by simp)
      (by norm_num) (by norm_num [maxQ, abs_of_nonneg])).1
  · exact (c8_onset_detection.1 [0, 0, 1, (1 : ℚ)/2, 1/10] (1/10) (by simp)
      (by norm_num) (by norm_num [maxQ, abs_of_nonneg])).2.1

/-! ## Masked-RIR convolution additivity -/

theorem length_mask_early (stop : Nat) (h : List ℚ) :
    (mask_early stop h).length = h.length := by
  induction h generalizing stop with
  | nil => rfl
  | cons x t ih =>
      cases stop with
      | zero => simp [mask_early, ih]
      | succ s => simp [mask_early, ih]

theorem length_mask_tail (stop : Nat) (h : List ℚ) :
    (mask_tail stop h).length = h.length := by
  induction h generalizing stop with
  | nil => rfl
  | cons x t ih =>
      cases stop with
      | zero => simp [mask_tail, ih]
      | succ s => simp [mask_tail, ih]

theorem mask_add (stop : Nat) (h : List ℚ) (j : Nat) :
    (mask_early stop h).getD j 0 + (mask_tail stop h).getD j 0 =
      h.getD j 0 := by
  induction h generalizing stop j with
  | nil => simp [mask_early, mask_tail]
  | cons x t ih =>
      cases stop with
      | zero =>
          cases j with
          | zero => simp [mask_early, mask_tail]
          | succ i => simpa [mask_early, mask_tail] using ih 0 i
      | succ s =>
          cases j with
          | zero => simp [mask_early, mask_tail]
          | succ i => simpa [mask_early, mask_tail] using ih s i

/-- C9: for every (per-speaker) source signal, RIR, split point
`rir_stop_sample` and scale factor, the scaled early-masked convolution and
the scaled tail-masked convolution sum exactly, in exact arithmetic, to the
scaled full convolution: the masks partition the RIR at `rir_stop_sample`,
convolution is linear in the RIR, and the same per-speaker scale factor is
applied to all three signals. -/
theorem c9_early_tail_additivity (s h : List ℚ) (stop : Nat) (scale : ℚ) :
    List.zipWith (· + ·)
      (scale_signal (fftconvolve s (mask_early stop h)) scale)
      (scale_signal (fftconvolve s (mask_tail stop h)) scale) =
    scale_signal (fftconvolve s h) scale := by
  have hle : (mask_early stop h).length = h.length := length_mask_early stop h
  have hlt : (mask_tail stop h).length = h.length := length_mask_tail stop h
  apply List.ext_getElem
  · simp [fftconvolve, scale_signal, hle, hlt]
  · intro i h1 h2
    simp only [scale_signal, fftconvolve, List.getElem_zipWith,
      List.getElem_map, List.getElem_range]
    rw [← add_mul]
    congr 1
    rw [← Finset.sum_add_distrib]
    refine Finset.sum_congr rfl ?_
    intro k _
    rw [← mul_add, mask_add]

/-- C10: `get_rir_start_sample` on a multichannel impulse response requires
the leading (channel) dimension to be smaller than 20: for every input with
20 or more channels the call fails the assertion (modelled as `none`)
instead of returning an onset index. -/
theorem c10_channel_limit (h : List (List ℚ)) (level_ratio : ℚ)
    (hc : 20 ≤ h.length) :
    get_rir_start_sample_multi h level_ratio = none := by
  rw [get_rir_start_sample_multi, if_neg (by omega)]

/-- Witness for C10 on a concrete 20-channel impulse response. -/
theorem c10_channel_limit_witness :
    20 ≤ (List.replicate 20 [(1 : ℚ)]).length ∧
    get_rir_start_sample_multi (List.replicate 20 [(1 : ℚ)]) (1/10) = none :=
  ⟨by simp, c10_channel_limit _ _ (by simp)⟩

/-- C1 as stated is false for the missing-RNG half: at the concrete call
`get_channel_slice('one_random', total_num_channels=4, rng=None)` the code
does not raise; it substitutes a freshly created process-default generator
(`np.random.default_rng()`, recorded by the `true` flag) and returns a
channel slice. -/
theorem c1_counterexample :
    get_channel_slice ChannelSliceSpec.one_random (some 4) none false =
      Except.ok (ChannelSel.sl (some 0) (some 1), true) := rfl

/-- C1 (amended): for `channel_slice='one_random'`, a missing total channel
count raises a fatal, explicit `ValueError` at the point of the missing
argument, for every rng and squeeze argument; a missing RNG, however, is
not an error: the call succeeds after substituting a default random source
(the returned flag is `true`). -/
theorem c1_channel_slice_missing_args :
    (∀ (rng : Option (Rng × Nat)) (squeeze : Bool),
      get_channel_slice ChannelSliceSpec.one_random none rng squeeze =
        Except.error
          "total_num_channels must be given to select a random channel") ∧
    (∀ (tot : Int) (squeeze : Bool), ∃ res,
      get_channel_slice ChannelSliceSpec.one_random (some tot) none squeeze =
        Except.ok res ∧ res.2 = true) := by
  constructor
  · intro rng squeeze
    rfl
  · intro tot squeeze
    cases squeeze
    · exact ⟨(ChannelSel.sl (some 0) (some 1), true), rfl, rfl⟩
    · exact ⟨(ChannelSel.idx 0, true), rfl, rfl⟩
